import Mathlib

/-!
# Verification of the AI-rule-list generator (`generator.py`)

Shallow embedding of the rule extraction / deduplication pipeline:

* `fetch_domains` (source lines 55-83): iterate over fetch results, split the
  text into lines, skip blank and comment lines, run
  `re.search(r"\bDOMAIN(?:-SUFFIX)?\s*,\s*([^,]+)", line)`, normalize the
  captured token with `.strip().lower()`, keep it when a keyword occurs in it
  as a substring and it contains a `"."`, and accumulate the survivors in a
  set.
* `write_conf` (lines 89-93): render a title line plus one
  `DOMAIN-SUFFIX,<d>,PROXY` line per domain, joined by `"\n"` with a final
  trailing `"\n"`.
* `main` (lines 100-139): per-group pipelines `sorted(fetch_domains(...))`
  and the combined file built from `sorted(set(g) | set(o) | set(c))`.

Machine strings are modelled as Lean `String`/`List Char`; Python's
`str.strip`, `str.splitlines`, `str.lower`, substring test `in`, string
comparison, and the one regular expression used by the program are embedded
as executable functions below.  The whitespace/linebreak character classes
cover the characters that can occur in the fetched rule-list texts (ASCII
control whitespace plus the common Unicode line separators).

Network effects are made explicit: a fetch outcome is an `Option String`
(`none` models a raised exception / non-success status for that URL,
`some text` models `r.text`).  The filesystem write is modelled by the pure
file content that `Path.write_text` receives.
-/

/-- Characters treated as whitespace by Python's `str.strip` and by `\s`
in the program's regular expression (restricted to the characters relevant
to rule-list texts). -/
def isPySpace (c : Char) : Bool :=
  c = ' ' || c = '\t' || c = '\n' || c = '\r' || c = '\x0b' || c = '\x0c' ||
  c = '\x1c' || c = '\x1d' || c = '\x1e' || c = '\x1f' || c = '\x85' ||
  c = '\xa0' || c = '\u2028' || c = '\u2029'

/-- Line-boundary characters of Python's `str.splitlines` (besides the
two-character boundary `"\r\n"`, which is handled separately). -/
def isLineBreak (c : Char) : Bool :=
  c = '\n' || c = '\r' || c = '\x0b' || c = '\x0c' ||
  c = '\x1c' || c = '\x1d' || c = '\x1e' || c = '\x85' ||
  c = '\u2028' || c = '\u2029'

/-- Word characters for the regex word boundary `\b` (ASCII `\w`). -/
def isWordChar (c : Char) : Bool :=
  c.isAlphanum || c = '_'

/-- Python `str.strip()` on the character list of a string. -/
def stripChars (cs : List Char) : List Char :=
  ((cs.dropWhile isPySpace).reverse.dropWhile isPySpace).reverse

/-- Python `str.strip()`. -/
def pyStrip (s : String) : String :=
  String.mk (stripChars s.data)

/-- Python `str.lower()` (ASCII case folding, which covers the rule texts). -/
def lowerChars (cs : List Char) : List Char :=
  cs.map Char.toLower

/-- Python `str.splitlines()` on the character list of a string. -/
def splitlinesList : List Char → List (List Char)
  | [] => []
  | c :: r =>
    if c = '\r' then
      match r with
      | [] => [[]]
      | '\n' :: r2 => [] :: splitlinesList r2
      | c2 :: r2 => [] :: splitlinesList (c2 :: r2)
    else if isLineBreak c then [] :: splitlinesList r
    else
      match splitlinesList r with
      | [] => [[c]]
      | l :: ls => (c :: l) :: ls

/-- Python `str.splitlines()`. -/
def pySplitlines (s : String) : List String :=
  (splitlinesList s.data).map String.mk

/-- Auxiliary scan for Python's substring test `sub in s`. -/
def substrAux (sub : List Char) : List Char → Bool
  | [] => sub.isEmpty
  | c :: t => sub.isPrefixOf (c :: t) || substrAux sub t

/-- Python's substring containment `sub in s`. -/
def strIn (sub s : List Char) : Bool :=
  substrAux sub s

/-- Python's string comparison `s <= t`: lexicographic on code points. -/
def lexLeChars : List Char → List Char → Bool
  | [], _ => true
  | _ :: _, [] => false
  | a :: as, b :: bs => if a < b then true else if b < a then false else lexLeChars as bs

/-- Python's strict string comparison `s < t`: lexicographic on code points. -/
def lexLtChars : List Char → List Char → Bool
  | [], [] => false
  | [], _ :: _ => true
  | _ :: _, [] => false
  | a :: as, b :: bs => if a < b then true else if b < a then false else lexLtChars as bs

/-- Python `s <= t` on strings. -/
def pyLe (s t : String) : Bool :=
  lexLeChars s.data t.data

/-- Python `s < t` on strings. -/
def pyLt (s t : String) : Bool :=
  lexLtChars s.data t.data

/-! ## The regular expression `\bDOMAIN(?:-SUFFIX)?\s*,\s*([^,]+)`

`re.search` scans the line left to right; at each position with a word
boundary it tries the literal `DOMAIN`, then greedily the optional
`-SUFFIX` (falling back to the plain variant on failure), then
`\s*,\s*([^,]+)` with the usual greedy/backtracking semantics of `\s*`
followed by the capture group. -/

/-- `\s*` (greedy skip of whitespace). -/
def dropSpaces (cs : List Char) : List Char :=
  cs.dropWhile isPySpace

/-- Match `\s*,\s*([^,]+)` at the current position and return the capture.
The greedy `\s*` after the comma backtracks by one character when everything
up to the next comma (or the end) is whitespace, so that `[^,]+` can still
consume one character. -/
def matchCapture (cs : List Char) : Option (List Char) :=
  match dropSpaces cs with
  | ',' :: rest =>
    let seg := rest.takeWhile (fun c => c != ',')
    if seg.isEmpty then none
    else
      let w := (seg.takeWhile isPySpace).length
      some (seg.drop (if w = seg.length then w - 1 else w))
  | _ => none

/-- Try the pattern (without the boundary test) at the current position:
literal `DOMAIN`, greedy optional `-SUFFIX`, then `\s*,\s*([^,]+)`. -/
def tryMatchAt (cs : List Char) : Option (List Char) :=
  if "DOMAIN".data.isPrefixOf cs then
    match (if "-SUFFIX".data.isPrefixOf (cs.drop 6) then matchCapture ((cs.drop 6).drop 7)
      else none) with
    | some cap => some cap
    | none => matchCapture (cs.drop 6)
  else none

/-- Left-to-right scan of `re.search`, remembering the previous character
for the word-boundary test `\b`. -/
def regexSearchAux : Option Char → List Char → Option (List Char)
  | _, [] => none
  | prev, c :: cs =>
    let boundary : Bool :=
      match prev with
      | none => true
      | some p => !(isWordChar p)
    match (if boundary then tryMatchAt (c :: cs) else none) with
    | some cap => some cap
    | none => regexSearchAux (some c) cs

/-- `re.search(r"\bDOMAIN(?:-SUFFIX)?\s*,\s*([^,]+)", line)`, returning
`m.group(1)` on success. -/
def regexSearch (cs : List Char) : Option (List Char) :=
  regexSearchAux none cs

/-! ## `fetch_domains` (lines 55-83) -/

/-- Lines 68-75: strip the line, skip it when it is empty or starts with
`"#"`, otherwise run the regular expression and return the raw capture
`m.group(1)`. -/
def extractLine (cs : List Char) : Option (List Char) :=
  if (stripChars cs).isEmpty || (stripChars cs).head? == some '#' then none
  else regexSearch (stripChars cs)

/-- Line 77: `d = m.group(1).strip().lower()`. -/
def normalizeTok (g : List Char) : List Char :=
  lowerChars (stripChars g)

/-- Lines 79-81: keep `d` when some keyword occurs in it as a substring and
`d` contains a `"."`. -/
def acceptTok (keywords : List String) (d : List Char) : Option (List Char) :=
  if keywords.any (fun k => strIn k.data d) then
    if d.contains '.' then some d else none
  else none

/-- Processing of one line inside `fetch_domains`: parse, normalize,
classify. -/
def lineDomain (keywords : List String) (cs : List Char) : Option (List Char) :=
  (extractLine cs).map normalizeTok |>.bind (acceptTok keywords)

/-- The domains contributed by one fetched text, in line order. -/
def textDomains (keywords : List String) (text : String) : List String :=
  (splitlinesList text.data).filterMap (fun l => (lineDomain keywords l).map String.mk)

/-- One iteration of the `for url in urls` loop: a failed fetch (`none`)
hits the `except` branch and leaves the accumulated set unchanged; a
successful fetch adds every surviving domain of the text to the set. -/
def fetchStep (keywords : List String) (acc : Finset String) (fetch : Option String) :
    Finset String :=
  match fetch with
  | none => acc
  | some text => acc ∪ (textDomains keywords text).toFinset

/-- `fetch_domains(urls, keywords)`, with each URL replaced by the outcome
of its `requests.get`: the set of accepted domains over all sources. -/
def fetch_domains (fetches : List (Option String)) (keywords : List String) : Finset String :=
  fetches.foldl (fetchStep keywords) ∅

/-! ## `write_conf` (lines 89-93) -/

/-- The formatted rule line `f"DOMAIN-SUFFIX,{d},PROXY"`. -/
def ruleLine (d : String) : String :=
  "DOMAIN-SUFFIX," ++ d ++ ",PROXY"

/-- Python `"\n".join(lines)`. -/
def joinLines : List String → String
  | [] => ""
  | [l] => l
  | l :: ls => l ++ "\n" ++ joinLines ls

/-- The file content passed to `path.write_text`: the title line, one rule
line per domain, joined by `"\n"`, plus a trailing `"\n"`. -/
def write_conf (domains : List String) (title : String) : String :=
  joinLines (title :: domains.map ruleLine) ++ "\n"

/-! ## Python `sorted` on a set of strings

Python's `sorted` orders strings lexicographically by code point.  The set
is modelled as a `Finset String`; its sorted enumeration is computed by
folding an order-insertion over the underlying multiset, which is legal
because insertion is left-commutative. -/

theorem lexLeChars_total : ∀ a b : List Char, lexLeChars a b = true ∨ lexLeChars b a = true := by
  intro a
  induction a with
  | nil => intro b; exact Or.inl rfl
  | cons x xs ih =>
    intro b
    cases b with
    | nil => exact Or.inr rfl
    | cons y ys =>
      rcases lt_trichotomy x y with h | h | h
      · left; simp [lexLeChars, h]
      · subst h
        rcases ih ys with h2 | h2
        · left; simp [lexLeChars, h2]
        · right; simp [lexLeChars, h2]
      · right; simp [lexLeChars, h]

theorem lexLeChars_antisymm : ∀ a b : List Char,
    lexLeChars a b = true → lexLeChars b a = true → a = b := by
  intro a
  induction a with
  | nil =>
    intro b h1 h2
    cases b with
    | nil => rfl
    | cons y ys => simp [lexLeChars] at h2
  | cons x xs ih =>
    intro b h1 h2
    cases b with
    | nil => simp [lexLeChars] at h1
    | cons y ys =>
      rcases lt_trichotomy x y with h | h | h
      · simp [lexLeChars, h, asymm h] at h2
      · subst h
        simp only [lexLeChars, lt_irrefl, if_false] at h1 h2
        rw [ih ys h1 h2]
      · simp [lexLeChars, h, asymm h] at h1

theorem lexLeChars_trans : ∀ a b c : List Char,
    lexLeChars a b = true → lexLeChars b c = true → lexLeChars a c = true := by
  intro a
  induction a with
  | nil => intro b c _ _; rfl
  | cons x xs ih =>
    intro b c h1 h2
    cases b with
    | nil => simp [lexLeChars] at h1
    | cons y ys =>
      cases c with
      | nil => simp [lexLeChars] at h2
      | cons z zs =>
        rcases lt_trichotomy x y with hxy | hxy | hxy
        · rcases lt_trichotomy y z with hyz | hyz | hyz
          · simp [lexLeChars, lt_trans hxy hyz]
          · subst hyz; simp [lexLeChars, hxy]
          · simp [lexLeChars, hyz, asymm hyz] at h2
        · subst hxy
          rcases lt_trichotomy x z with hxz | hxz | hxz
          · simp [lexLeChars, hxz]
          · subst hxz
            simp only [lexLeChars, lt_irrefl, if_false] at h1 h2 ⊢
            exact ih ys zs h1 h2
          · simp [lexLeChars, hxz, asymm hxz] at h2
        · simp [lexLeChars, hxy, asymm hxy] at h1

theorem lexLtChars_iff : ∀ a b : List Char,
    lexLtChars a b = true ↔ (lexLeChars a b = true ∧ a ≠ b) := by
  intro a
  induction a with
  | nil => intro b; cases b <;> simp [lexLtChars, lexLeChars]
  | cons x xs ih =>
    intro b
    cases b with
    | nil => simp [lexLtChars, lexLeChars]
    | cons y ys =>
      rcases lt_trichotomy x y with h | h | h
      · simp [lexLtChars, lexLeChars, h, h.ne]
      · subst h; simp [lexLtChars, lexLeChars, ih]
      · simp [lexLtChars, lexLeChars, h, asymm h]

theorem pyLe_total (s t : String) : pyLe s t = true ∨ pyLe t s = true :=
  lexLeChars_total s.data t.data

theorem pyLe_antisymm {s t : String} (h1 : pyLe s t = true) (h2 : pyLe t s = true) : s = t := by
  cases s with
  | mk l1 =>
    cases t with
    | mk l2 => exact congrArg String.mk (lexLeChars_antisymm l1 l2 h1 h2)

theorem pyLe_trans {s t u : String} (h1 : pyLe s t = true) (h2 : pyLe t u = true) :
    pyLe s u = true :=
  lexLeChars_trans s.data t.data u.data h1 h2

theorem pyLt_iff (s t : String) : pyLt s t = true ↔ (pyLe s t = true ∧ s ≠ t) := by
  have h := lexLtChars_iff s.data t.data
  constructor
  · intro hlt
    rcases h.mp hlt with ⟨h1, h2⟩
    exact ⟨h1, fun he => h2 (congrArg String.data he)⟩
  · rintro ⟨h1, h2⟩
    refine h.mpr ⟨h1, fun he => h2 ?_⟩
    cases s with
    | mk l1 =>
      cases t with
      | mk l2 => exact congrArg String.mk he

/-- Ordered insertion of one string into a list, with respect to Python's
string comparison. -/
def insertSorted (x : String) : List String → List String
  | [] => [x]
  | y :: ys => if pyLe x y then x :: y :: ys else y :: insertSorted x ys

theorem insertSorted_comm (x y : String) (l : List String) :
    insertSorted x (insertSorted y l) = insertSorted y (insertSorted x l) := by
  induction l with
  | nil =>
    by_cases hxy : pyLe x y = true
    · by_cases hyx : pyLe y x = true
      · have hE := pyLe_antisymm hxy hyx; subst hE; rfl
      · simp [insertSorted, hxy, hyx]
    · have hyx := (pyLe_total x y).resolve_left hxy
      simp [insertSorted, hxy, hyx]
  | cons z zs ih =>
    by_cases hyz : pyLe y z = true
    · by_cases hxz : pyLe x z = true
      · by_cases hxy : pyLe x y = true
        · by_cases hyx : pyLe y x = true
          · have hE := pyLe_antisymm hxy hyx; subst hE; rfl
          · simp [insertSorted, hyz, hxz, hxy, hyx]
        · have hyx := (pyLe_total x y).resolve_left hxy
          simp [insertSorted, hyz, hxz, hxy, hyx]
      · have hxy : ¬ pyLe x y = true := fun h => hxz (pyLe_trans h hyz)
        simp [insertSorted, hyz, hxz, hxy]
    · by_cases hxz : pyLe x z = true
      · have hyx : ¬ pyLe y x = true := fun h => hyz (pyLe_trans h hxz)
        simp [insertSorted, hyz, hxz, hyx]
      · simp [insertSorted, hyz, hxz, ih]

instance : LeftCommutative insertSorted :=
  ⟨insertSorted_comm⟩

/-- Python `sorted(s)` for a set `s` of strings: the ascending (code-point
lexicographic) enumeration of the set. -/
def sortedDomains (s : Finset String) : List String :=
  Multiset.foldr insertSorted [] s.val

/-! ## The `main` pipeline (lines 100-139) -/

/-- Keyword list of the Google AI / Gemini group (lines 106-109). -/
def GOOGLE_KEYWORDS : List String :=
  ["google", "gemini", "deepmind", "aistudio", "bard", "makersuite", "palm"]

/-- Keyword list of the OpenAI / ChatGPT group (lines 116-119). -/
def OPENAI_KEYWORDS : List String :=
  ["openai", "chatgpt", "oaiusercontent", "sora", "api.openai"]

/-- Keyword list of the Claude / Anthropic group (lines 126-129). -/
def CLAUDE_KEYWORDS : List String :=
  ["anthropic", "claude", "claude-api"]

/-- Line 136: `all_domains = sorted(set(google) | set(openai) | set(claude))`,
where `google`, `openai`, `claude` are the sorted per-group lists. -/
def allDomains (g o c : List (Option String)) : List String :=
  sortedDomains
    (((sortedDomains (fetch_domains g GOOGLE_KEYWORDS)).toFinset ∪
        (sortedDomains (fetch_domains o OPENAI_KEYWORDS)).toFinset) ∪
      (sortedDomains (fetch_domains c CLAUDE_KEYWORDS)).toFinset)

/-- The write stage as invoked by `main`: the collected domain set is
sorted (`google = sorted(google)`, line 110) and passed to `write_conf`. -/
def writeStage (domains : List String) (title : String) : String :=
  write_conf (sortedDomains domains.toFinset) title

/-- Feeding the file content produced by the writer (with its default
title `"# Auto generated"`) back through the fetch-parse-classify stage. -/
def roundTrip (domains keywords : List String) : Finset String :=
  fetch_domains [some (write_conf domains "# Auto generated")] keywords

/-! ## Incremental append mode (spec §2, §4.4, §4.5)

The script implementing the incremental append mode is not part of `src/`
(only the regeneration script `generator.py` is); the following definitions
are modelled from the specification. -/

/-- Modelled from the spec: the `DOMAIN-SUFFIX` entries already declared in
the existing target file — the tokens extracted by the rule-line parser
from each line of the file, trimmed but *not* normalized (exact string
match, spec §4.4). -/
def existingEntries (text : String) : Finset String :=
  ((splitlinesList text.data).filterMap
    (fun l => (extractLine l).map (fun g => String.mk (stripChars g)))).toFinset

/-- Modelled from the spec: the "new domains" of the incremental pipeline —
the set difference between the candidate domains and the entries already
present in the target file (spec §4.4). -/
def newDomains (candidates : Finset String) (fileText : String) : Finset String :=
  candidates \ existingEntries fileText

/-- Modelled from the spec: the append-mode write (spec §4.5) — the prior
content is preserved verbatim, a blank separator line and a section header
are added, then one formatted rule line per new domain, in sorted order. -/
def incrementalAppend (candidates : Finset String) (fileText header : String) : String :=
  fileText ++ "\n" ++ header ++ "\n" ++
    String.join ((sortedDomains (newDomains candidates fileText)).map (fun d => ruleLine d ++ "\n"))

/-! ## Basic helper lemmas -/

theorem mk_data (s : String) : String.mk s.data = s := by
  cases s with
  | mk l => rfl

theorem ws_ne_comma {c : Char} (h : isPySpace c = true) : (c != ',') = true := by
  rcases eq_or_ne c ',' with he | he
  · subst he; exact absurd h (by decide)
  · simp [he]

theorem break_is_space {c : Char} (h : isLineBreak c = true) : isPySpace c = true := by
  simp only [isLineBreak, Bool.or_eq_true, decide_eq_true_eq] at h
  rcases h with (((((((((h | h) | h) | h) | h) | h) | h) | h) | h) | h) <;> subst h <;> decide

theorem dropWhile_all_append {p : Char → Bool} :
    ∀ (w cs : List Char), (∀ c ∈ w, p c = true) →
      List.dropWhile p (w ++ cs) = List.dropWhile p cs := by
  intro w
  induction w with
  | nil => intro cs _; rfl
  | cons a w' ih =>
    intro cs h
    have ha : p a = true := h a (List.mem_cons_self a w')
    rw [List.cons_append, List.dropWhile_cons_of_pos ha]
    exact ih cs fun c hc => h c (List.mem_cons_of_mem a hc)

theorem takeWhile_all_append {p : Char → Bool} :
    ∀ (w cs : List Char), (∀ c ∈ w, p c = true) →
      List.takeWhile p (w ++ cs) = w ++ List.takeWhile p cs := by
  intro w
  induction w with
  | nil => intro cs _; rfl
  | cons a w' ih =>
    intro cs h
    have ha : p a = true := h a (List.mem_cons_self a w')
    rw [List.cons_append, List.takeWhile_cons_of_pos ha, ih cs fun c hc => h c (List.mem_cons_of_mem a hc),
      List.cons_append]

theorem dropWhile_head_false {p : Char → Bool} :
    ∀ {l c r}, List.dropWhile p l = c :: r → p c = false := by
  intro l
  induction l with
  | nil => intro c r h; simp at h
  | cons a l' ih =>
    intro c r h
    by_cases ha : p a = true
    · rw [List.dropWhile_cons_of_pos ha] at h
      exact ih h
    · rw [List.dropWhile_cons_of_neg ha] at h
      injection h with h1 _
      subst h1
      simpa using ha

theorem dropWhile_append_of_ne_nil {p : Char → Bool} :
    ∀ (x w : List Char), x.dropWhile p ≠ [] →
      List.dropWhile p (x ++ w) = x.dropWhile p ++ w := by
  intro x
  induction x with
  | nil => intro w h; exact absurd rfl h
  | cons a x' ih =>
    intro w h
    by_cases ha : p a = true
    · rw [List.dropWhile_cons_of_pos ha] at h
      rw [List.cons_append, List.dropWhile_cons_of_pos ha, List.dropWhile_cons_of_pos ha] at *
      exact ih w h
    · rw [List.cons_append, List.dropWhile_cons_of_neg ha, List.dropWhile_cons_of_neg ha,
        List.cons_append]

theorem dropWhile_eq_self_of_head {p : Char → Bool} (l : List Char)
    (h : ∀ c, l.head? = some c → p c = false) : List.dropWhile p l = l := by
  cases l with
  | nil => rfl
  | cons a l' =>
    refine List.dropWhile_cons_of_neg ?_
    simp [h a rfl]

theorem stripChars_eq_self {l : List Char}
    (h1 : ∀ c, l.head? = some c → isPySpace c = false)
    (h2 : ∀ c, l.getLast? = some c → isPySpace c = false) :
    stripChars l = l := by
  unfold stripChars
  rw [dropWhile_eq_self_of_head l h1,
    dropWhile_eq_self_of_head l.reverse fun c hc => h2 c (by rwa [List.head?_reverse] at hc)]
  exact List.reverse_reverse l

theorem stripChars_eq_nil_of {l : List Char} (h : l.dropWhile isPySpace = []) :
    stripChars l = [] := by
  unfold stripChars
  rw [h]
  rfl

theorem dropWhile_ne_nil_of_stripChars {l : List Char} (h : stripChars l ≠ []) :
    l.dropWhile isPySpace ≠ [] :=
  fun hd => h (stripChars_eq_nil_of hd)

theorem stripChars_append_ws (x w : List Char) (hw : ∀ c ∈ w, isPySpace c = true) :
    stripChars (x ++ w) = stripChars x := by
  by_cases hx : x.dropWhile isPySpace = []
  · have hxall : ∀ c ∈ x, isPySpace c = true := fun c hc => by
      simpa using List.dropWhile_eq_nil_iff.mp hx c hc
    have hall : (x ++ w).dropWhile isPySpace = [] := by
      refine List.dropWhile_eq_nil_iff.mpr fun c hc => ?_
      rcases List.mem_append.mp hc with h | h
      · simpa using hxall c h
      · simpa using hw c h
    rw [stripChars_eq_nil_of hall, stripChars_eq_nil_of hx]
  · unfold stripChars
    rw [dropWhile_append_of_ne_nil x w hx, List.reverse_append,
      dropWhile_all_append w.reverse _ fun c hc => hw c (List.mem_reverse.mp hc)]

theorem dropWhile_idem (l : List Char) :
    (l.dropWhile isPySpace).dropWhile isPySpace = l.dropWhile isPySpace := by
  refine dropWhile_eq_self_of_head _ fun c hc => ?_
  cases h : l.dropWhile isPySpace with
  | nil => rw [h] at hc; simp at hc
  | cons a r =>
    rw [h] at hc
    simp only [List.head?_cons, Option.some.injEq] at hc
    subst hc
    exact dropWhile_head_false h

theorem stripChars_dropWhile (t : List Char) :
    stripChars (t.dropWhile isPySpace) = stripChars t := by
  unfold stripChars
  rw [dropWhile_idem]

theorem isPrefixOf_append_self : ∀ (a b : List Char), a.isPrefixOf (a ++ b) = true := by
  intro a
  induction a with
  | nil => intro b; exact List.isPrefixOf_nil_left
  | cons x xs ih =>
    intro b
    rw [List.cons_append, List.isPrefixOf_cons₂_self]
    exact ih b

/-! ## Evaluation of the parser on well-formed rule lines -/

theorem matchCapture_eval_core (w1 w2 a b' w3 q : List Char) (c0 : Char)
    (hw1 : ∀ c ∈ w1, isPySpace c = true)
    (hw2 : ∀ c ∈ w2, isPySpace c = true)
    (ha : ∀ c ∈ a, isPySpace c = true)
    (hc0 : isPySpace c0 = false)
    (hc0c : c0 ≠ ',')
    (hb' : ∀ c ∈ b', c ≠ ',')
    (hw3 : ∀ c ∈ w3, isPySpace c = true) :
    matchCapture (w1 ++ ',' :: ((w2 ++ (a ++ c0 :: b') ++ w3) ++ ',' :: q)) =
      some (c0 :: (b' ++ w3)) := by
  have hmc : matchCapture (w1 ++ ',' :: ((w2 ++ (a ++ c0 :: b') ++ w3) ++ ',' :: q)) =
      matchCapture (',' :: ((w2 ++ (a ++ c0 :: b') ++ w3) ++ ',' :: q)) := by
    unfold matchCapture dropSpaces
    rw [dropWhile_all_append w1 _ hw1]
  rw [hmc]
  have hbody : ∀ M : List Char, matchCapture (',' :: M) =
      (if (M.takeWhile fun c => c != ',').isEmpty then none
       else some ((M.takeWhile fun c => c != ',').drop
         (if ((M.takeWhile fun c => c != ',').takeWhile isPySpace).length =
             (M.takeWhile fun c => c != ',').length
          then ((M.takeWhile fun c => c != ',').takeWhile isPySpace).length - 1
          else ((M.takeWhile fun c => c != ',').takeWhile isPySpace).length))) :=
    fun M => rfl
  rw [hbody]
  have hBIG : ∀ c ∈ (w2 ++ (a ++ c0 :: b') ++ w3), (c != ',') = true := by
    intro c hc
    rcases List.mem_append.mp hc with h | h
    · rcases List.mem_append.mp h with h | h
      · exact ws_ne_comma (hw2 c h)
      · rcases List.mem_append.mp h with h | h
        · exact ws_ne_comma (ha c h)
        · rcases List.mem_cons.mp h with h | h
          · subst h; simpa using hc0c
          · simpa using hb' c h
    · exact ws_ne_comma (hw3 c h)
  have hseg : ((w2 ++ (a ++ c0 :: b') ++ w3) ++ ',' :: q).takeWhile (fun c => c != ',') =
      w2 ++ (a ++ (c0 :: (b' ++ w3))) := by
    rw [takeWhile_all_append _ _ hBIG, List.takeWhile_cons_of_neg (by decide), List.append_nil]
    simp [List.append_assoc]
  rw [hseg]
  have htw : (w2 ++ (a ++ (c0 :: (b' ++ w3)))).takeWhile isPySpace = w2 ++ a := by
    rw [takeWhile_all_append _ _ hw2, takeWhile_all_append _ _ ha,
      List.takeWhile_cons_of_neg (by simp [hc0]), List.append_nil]
  rw [htw]
  have hlen : (w2 ++ a).length ≠ (w2 ++ (a ++ (c0 :: (b' ++ w3)))).length := by
    simp only [List.length_append, List.length_cons]
    omega
  rw [if_neg hlen]
  have hdrop : (w2 ++ (a ++ (c0 :: (b' ++ w3)))).drop (w2 ++ a).length = c0 :: (b' ++ w3) := by
    rw [show w2 ++ (a ++ (c0 :: (b' ++ w3))) = (w2 ++ a) ++ (c0 :: (b' ++ w3)) by
      simp [List.append_assoc]]
    exact List.drop_left _ _
  rw [hdrop, if_neg]
  simp

theorem tryMatchAt_suffix {REST cap : List Char}
    (hmc : matchCapture REST = some cap) :
    tryMatchAt ("DOMAIN".data ++ ("-SUFFIX".data ++ REST)) = some cap := by
  unfold tryMatchAt
  rw [isPrefixOf_append_self]
  have h6 : ("DOMAIN".data ++ ("-SUFFIX".data ++ REST)).drop 6 = "-SUFFIX".data ++ REST :=
    List.drop_left' rfl
  rw [h6, isPrefixOf_append_self]
  have h7 : ("-SUFFIX".data ++ REST).drop 7 = REST := List.drop_left' rfl
  rw [h7, hmc]
  simp

theorem dash_not_prefixOf (w1 : List Char) (hw1 : ∀ c ∈ w1, isPySpace c = true)
    (X : List Char) : "-SUFFIX".data.isPrefixOf (w1 ++ ',' :: X) = false := by
  cases w1 with
  | nil =>
    rw [show ("-SUFFIX".data : List Char) = '-' :: "SUFFIX".data from rfl, List.nil_append,
      List.isPrefixOf_cons₂]
    simp
  | cons cw w1' =>
    have hcw : cw ≠ '-' := by
      intro h
      subst h
      exact absurd (hw1 '-' (List.mem_cons_self _ _)) (by decide)
    rw [show ("-SUFFIX".data : List Char) = '-' :: "SUFFIX".data from rfl, List.cons_append,
      List.isPrefixOf_cons₂]
    simp [Ne.symm hcw]

theorem tryMatchAt_plain {REST cap : List Char}
    (hns : "-SUFFIX".data.isPrefixOf REST = false)
    (hmc : matchCapture REST = some cap) :
    tryMatchAt ("DOMAIN".data ++ REST) = some cap := by
  unfold tryMatchAt
  rw [isPrefixOf_append_self]
  have h6 : ("DOMAIN".data ++ REST).drop 6 = REST := List.drop_left' rfl
  rw [h6, hns, hmc]
  simp

theorem regexSearch_head {c : Char} {cs cap : List Char}
    (h : tryMatchAt (c :: cs) = some cap) : regexSearch (c :: cs) = some cap := by
  unfold regexSearch regexSearchAux
  simp [h]

theorem extract_rule (sfx : Bool) (w1 w2 w3 t : List Char)
    (hw1 : ∀ c ∈ w1, isPySpace c = true)
    (hw2 : ∀ c ∈ w2, isPySpace c = true)
    (hw3 : ∀ c ∈ w3, isPySpace c = true)
    (ht : ∀ c ∈ t, c ≠ ',')
    (hne : t.dropWhile isPySpace ≠ []) :
    extractLine ((if sfx then "DOMAIN-SUFFIX".data else "DOMAIN".data) ++
        (w1 ++ ',' :: ((w2 ++ t ++ w3) ++ ',' :: "PROXY".data))) =
      some (t.dropWhile isPySpace ++ w3) := by
  obtain ⟨c0, b', hb⟩ : ∃ c0 b', t.dropWhile isPySpace = c0 :: b' := by
    cases h : t.dropWhile isPySpace with
    | nil => exact absurd h hne
    | cons x xs => exact ⟨x, xs, rfl⟩
  have hc0 : isPySpace c0 = false := dropWhile_head_false hb
  have ht2 : t.takeWhile isPySpace ++ (c0 :: b') = t := by
    rw [← hb]
    exact List.takeWhile_append_dropWhile isPySpace t
  have hta : ∀ c ∈ t.takeWhile isPySpace, isPySpace c = true := fun c hc =>
    List.mem_takeWhile_imp hc
  have hc0c : c0 ≠ ',' := ht c0 (by
    rw [← ht2]
    exact List.mem_append.mpr (Or.inr (List.mem_cons_self _ _)))
  have hb'c : ∀ c ∈ b', c ≠ ',' := fun c hc => ht c (by
    rw [← ht2]
    exact List.mem_append.mpr (Or.inr (List.mem_cons_of_mem _ hc)))
  rw [hb, ← ht2]
  have hcap := matchCapture_eval_core w1 w2 (t.takeWhile isPySpace) b' w3 "PROXY".data c0
    hw1 hw2 hta hc0 hc0c hb'c hw3
  cases sfx with
  | true =>
    rw [if_pos rfl]
    have hh : ∀ c, ("DOMAIN-SUFFIX".data ++
        (w1 ++ ',' :: ((w2 ++ (t.takeWhile isPySpace ++ (c0 :: b')) ++ w3) ++
          ',' :: "PROXY".data))).head? = some c → isPySpace c = false := by
      intro c hc
      rw [show ("DOMAIN-SUFFIX".data : List Char) = 'D' :: "OMAIN-SUFFIX".data from rfl,
        List.cons_append, List.head?_cons] at hc
      simp only [Option.some.injEq] at hc
      subst hc
      decide
    have hl : ∀ c, ("DOMAIN-SUFFIX".data ++
        (w1 ++ ',' :: ((w2 ++ (t.takeWhile isPySpace ++ (c0 :: b')) ++ w3) ++
          ',' :: "PROXY".data))).getLast? = some c → isPySpace c = false := by
      intro c hc
      rw [show ("DOMAIN-SUFFIX".data : List Char) ++
          (w1 ++ ',' :: ((w2 ++ (t.takeWhile isPySpace ++ (c0 :: b')) ++ w3) ++
            ',' :: "PROXY".data)) =
          ("DOMAIN-SUFFIX".data ++
            (w1 ++ ',' :: (w2 ++ (t.takeWhile isPySpace ++ (c0 :: b')) ++ w3))) ++
            ',' :: "PROXY".data from by simp [List.append_assoc]] at hc
      rw [List.getLast?_append_of_ne_nil _ (by simp)] at hc
      rw [show ((',' :: "PROXY".data : List Char)).getLast? = some 'Y' from by decide] at hc
      simp only [Option.some.injEq] at hc
      subst hc
      decide
    have hstrip := stripChars_eq_self hh hl
    unfold extractLine
    rw [hstrip]
    have hcond : (("DOMAIN-SUFFIX".data ++
        (w1 ++ ',' :: ((w2 ++ (t.takeWhile isPySpace ++ (c0 :: b')) ++ w3) ++
          ',' :: "PROXY".data))).isEmpty ||
        ("DOMAIN-SUFFIX".data ++
        (w1 ++ ',' :: ((w2 ++ (t.takeWhile isPySpace ++ (c0 :: b')) ++ w3) ++
          ',' :: "PROXY".data))).head? == some '#') = false := rfl
    rw [hcond]
    simp only [Bool.false_eq_true, if_false]
    rw [show ("DOMAIN-SUFFIX".data : List Char) ++
        (w1 ++ ',' :: ((w2 ++ (t.takeWhile isPySpace ++ (c0 :: b')) ++ w3) ++
          ',' :: "PROXY".data)) =
        'D' :: ("OMAIN-SUFFIX".data ++
          (w1 ++ ',' :: ((w2 ++ (t.takeWhile isPySpace ++ (c0 :: b')) ++ w3) ++
            ',' :: "PROXY".data))) from rfl]
    apply regexSearch_head
    rw [show 'D' :: ("OMAIN-SUFFIX".data ++
          (w1 ++ ',' :: ((w2 ++ (t.takeWhile isPySpace ++ (c0 :: b')) ++ w3) ++
            ',' :: "PROXY".data))) =
        "DOMAIN".data ++ ("-SUFFIX".data ++
          (w1 ++ ',' :: ((w2 ++ (t.takeWhile isPySpace ++ (c0 :: b')) ++ w3) ++
            ',' :: "PROXY".data))) from rfl]
    exact tryMatchAt_suffix hcap
  | false =>
    rw [if_neg (by simp)]
    have hh : ∀ c, ("DOMAIN".data ++
        (w1 ++ ',' :: ((w2 ++ (t.takeWhile isPySpace ++ (c0 :: b')) ++ w3) ++
          ',' :: "PROXY".data))).head? = some c → isPySpace c = false := by
      intro c hc
      rw [show ("DOMAIN".data : List Char) = 'D' :: "OMAIN".data from rfl,
        List.cons_append, List.head?_cons] at hc
      simp only [Option.some.injEq] at hc
      subst hc
      decide
    have hl : ∀ c, ("DOMAIN".data ++
        (w1 ++ ',' :: ((w2 ++ (t.takeWhile isPySpace ++ (c0 :: b')) ++ w3) ++
          ',' :: "PROXY".data))).getLast? = some c → isPySpace c = false := by
      intro c hc
      rw [show ("DOMAIN".data : List Char) ++
          (w1 ++ ',' :: ((w2 ++ (t.takeWhile isPySpace ++ (c0 :: b')) ++ w3) ++
            ',' :: "PROXY".data)) =
          ("DOMAIN".data ++
            (w1 ++ ',' :: (w2 ++ (t.takeWhile isPySpace ++ (c0 :: b')) ++ w3))) ++
            ',' :: "PROXY".data from by simp [List.append_assoc]] at hc
      rw [List.getLast?_append_of_ne_nil _ (by simp)] at hc
      rw [show ((',' :: "PROXY".data : List Char)).getLast? = some 'Y' from by decide] at hc
      simp only [Option.some.injEq] at hc
      subst hc
      decide
    have hstrip := stripChars_eq_self hh hl
    unfold extractLine
    rw [hstrip]
    have hcond : (("DOMAIN".data ++
        (w1 ++ ',' :: ((w2 ++ (t.takeWhile isPySpace ++ (c0 :: b')) ++ w3) ++
          ',' :: "PROXY".data))).isEmpty ||
        ("DOMAIN".data ++
        (w1 ++ ',' :: ((w2 ++ (t.takeWhile isPySpace ++ (c0 :: b')) ++ w3) ++
          ',' :: "PROXY".data))).head? == some '#') = false := rfl
    rw [hcond]
    simp only [Bool.false_eq_true, if_false]
    rw [show ("DOMAIN".data : List Char) ++
        (w1 ++ ',' :: ((w2 ++ (t.takeWhile isPySpace ++ (c0 :: b')) ++ w3) ++
          ',' :: "PROXY".data)) =
        'D' :: ("OMAIN".data ++
          (w1 ++ ',' :: ((w2 ++ (t.takeWhile isPySpace ++ (c0 :: b')) ++ w3) ++
            ',' :: "PROXY".data))) from rfl]
    apply regexSearch_head
    rw [show 'D' :: ("OMAIN".data ++
          (w1 ++ ',' :: ((w2 ++ (t.takeWhile isPySpace ++ (c0 :: b')) ++ w3) ++
            ',' :: "PROXY".data))) =
        "DOMAIN".data ++
          (w1 ++ ',' :: ((w2 ++ (t.takeWhile isPySpace ++ (c0 :: b')) ++ w3) ++
            ',' :: "PROXY".data)) from rfl]
    exact tryMatchAt_plain (dash_not_prefixOf w1 hw1 _) hcap

theorem splitlines_lf (r : List Char) : splitlinesList ('\n' :: r) = [] :: splitlinesList r := by
  cases r with
  | nil => rw [splitlinesList.eq_2, if_neg (by decide), if_pos (by decide)]
  | cons c2 r2 =>
    by_cases h : c2 = '\n'
    · subst h
      rw [splitlinesList.eq_3, if_neg (by decide), if_pos (by decide)]
    · rw [splitlinesList.eq_4 _ _ _ (fun hh => h hh), if_neg (by decide), if_pos (by decide)]

theorem splitlines_cons_no_break {c : Char} (hc : isLineBreak c = false) (r : List Char) :
    splitlinesList (c :: r) =
      match splitlinesList r with
      | [] => [[c]]
      | l :: ls => (c :: l) :: ls := by
  have hcr : ¬ (c = '\r') := by
    rintro rfl
    exact absurd hc (by decide)
  have hcb : ¬ (isLineBreak c = true) := by simp [hc]
  cases r with
  | nil => rw [splitlinesList.eq_2, if_neg hcr, if_neg hcb]
  | cons c2 r2 =>
    by_cases h : c2 = '\n'
    · subst h
      rw [splitlinesList.eq_3, if_neg hcr, if_neg hcb]
    · rw [splitlinesList.eq_4 _ _ _ (fun hh => h hh), if_neg hcr, if_neg hcb]


theorem splitlines_append_one : ∀ (m : List Char), (∀ c ∈ m, isLineBreak c = false) →
    splitlinesList (m ++ ['\n']) = [m] := by
  intro m
  induction m with
  | nil =>
    intro _
    rw [List.nil_append, splitlines_lf]
    rfl
  | cons c m' ih =>
    intro h
    rw [List.cons_append, splitlines_cons_no_break (h c (List.mem_cons_self _ _)) _,
      ih fun x hx => h x (List.mem_cons_of_mem _ hx)]

theorem splitlines_append_line : ∀ (m rest : List Char), (∀ c ∈ m, isLineBreak c = false) →
    splitlinesList (m ++ '\n' :: rest) = m :: splitlinesList rest := by
  intro m
  induction m with
  | nil =>
    intro rest _
    rw [List.nil_append, splitlines_lf]
  | cons c m' ih =>
    intro rest h
    rw [List.cons_append, splitlines_cons_no_break (h c (List.mem_cons_self _ _)) _,
      ih rest fun x hx => h x (List.mem_cons_of_mem _ hx)]

theorem joinLines_cons_cons (l a : String) (ls : List String) :
    joinLines (l :: a :: ls) = l ++ "\n" ++ joinLines (a :: ls) := rfl

theorem splitlines_join : ∀ (ls : List String), ls ≠ [] →
    (∀ l ∈ ls, ∀ c ∈ l.data, isLineBreak c = false) →
    splitlinesList ((joinLines ls).data ++ ['\n']) = ls.map String.data := by
  intro ls
  induction ls with
  | nil => intro h _; exact absurd rfl h
  | cons l ls' ih =>
    intro _ h
    cases ls' with
    | nil =>
      rw [show joinLines [l] = l from rfl,
        splitlines_append_one l.data fun c hc => h l (List.mem_cons_self _ _) c hc]
      rfl
    | cons a ls'' =>
      rw [joinLines_cons_cons]
      rw [show ((l ++ "\n" ++ joinLines (a :: ls'')).data ++ ['\n'] : List Char) =
          l.data ++ '\n' :: ((joinLines (a :: ls'')).data ++ ['\n']) from by
        simp [List.append_assoc]]
      rw [splitlines_append_line _ _ fun c hc => h l (List.mem_cons_self _ _) c hc]
      rw [ih (by simp) fun x hx => h x (List.mem_cons_of_mem _ hx)]
      rfl

theorem ruleLine_data (d : String) :
    (ruleLine d).data = "DOMAIN-SUFFIX,".data ++ (d.data ++ ",PROXY".data) := by
  simp [ruleLine, List.append_assoc]

theorem ruleLine_no_break {d : String} (hd : ∀ c ∈ d.data, isLineBreak c = false) :
    ∀ c ∈ (ruleLine d).data, isLineBreak c = false := by
  intro c hc
  rw [ruleLine_data] at hc
  rcases List.mem_append.mp hc with h | h
  · revert h
    have : ∀ c ∈ ("DOMAIN-SUFFIX,".data : List Char), isLineBreak c = false := by decide
    exact this c
  · rcases List.mem_append.mp h with h | h
    · exact hd c h
    · revert h
      have : ∀ c ∈ (",PROXY".data : List Char), isLineBreak c = false := by decide
      exact this c

theorem pySplitlines_write_conf (title : String) (domains : List String)
    (ht : ∀ c ∈ title.data, isLineBreak c = false)
    (hd : ∀ d ∈ domains, ∀ c ∈ d.data, isLineBreak c = false) :
    pySplitlines (write_conf domains title) = title :: domains.map ruleLine := by
  unfold pySplitlines write_conf
  rw [show ((joinLines (title :: domains.map ruleLine) ++ "\n").data : List Char) =
      (joinLines (title :: domains.map ruleLine)).data ++ ['\n'] from by simp]
  have hlines : ∀ l ∈ title :: domains.map ruleLine, ∀ c ∈ l.data, isLineBreak c = false := by
    intro l hl c hc
    rcases List.mem_cons.mp hl with rfl | hl
    · exact ht c hc
    · obtain ⟨d, hd2, rfl⟩ := List.mem_map.mp hl
      exact ruleLine_no_break (hd d hd2) c hc
  rw [splitlines_join _ (by simp) hlines, List.map_map]
  rw [show (String.mk ∘ String.data) = id from funext fun s => mk_data s, List.map_id]

theorem ruleLine_getLast (d : String) : (ruleLine d).data.getLast? = some 'Y' := by
  rw [ruleLine_data,
    List.getLast?_append_of_ne_nil _
      (List.append_ne_nil_of_right_ne_nil _ (by decide : (",PROXY".data : List Char) ≠ [])),
    List.getLast?_append_of_ne_nil _ (by decide : (",PROXY".data : List Char) ≠ [])]
  decide

theorem joinLines_getLast_Y : ∀ (ls : List String) (t : String), ls ≠ [] →
    (∀ l ∈ ls, l.data.getLast? = some 'Y') →
    (joinLines (t :: ls)).data.getLast? = some 'Y' := by
  intro ls
  induction ls with
  | nil => intro t h _; exact absurd rfl h
  | cons a ls' ih =>
    intro t _ h
    rw [joinLines_cons_cons]
    cases ls' with
    | nil =>
      rw [show joinLines [a] = a from rfl]
      have ha := h a (List.mem_cons_self _ _)
      have hne : a.data ≠ [] := by
        intro hh
        rw [hh] at ha
        simp at ha
      rw [show ((t ++ "\n" ++ a).data : List Char) = (t.data ++ ['\n']) ++ a.data from by simp,
        List.getLast?_append_of_ne_nil _ hne]
      exact ha
    | cons b ls'' =>
      have hin := ih a (by simp) fun l hl => h l (List.mem_cons_of_mem _ hl)
      have hne : (joinLines (a :: b :: ls'')).data ≠ [] := by
        intro hh
        rw [hh] at hin
        simp at hin
      rw [show ((t ++ "\n" ++ joinLines (a :: b :: ls'')).data : List Char) =
          (t.data ++ ['\n']) ++ (joinLines (a :: b :: ls'')).data from by simp,
        List.getLast?_append_of_ne_nil _ hne]
      exact hin

theorem joinLines_getLast_not_lf (title : String) (domains : List String)
    (ht : ∀ c ∈ title.data, isLineBreak c = false) :
    (joinLines (title :: domains.map ruleLine)).data.getLast? ≠ some '\n' := by
  cases domains with
  | nil =>
    rw [show title :: List.map ruleLine [] = [title] from rfl,
      show joinLines [title] = title from rfl]
    intro hc
    have hmem : '\n' ∈ title.data := by
      rw [List.getLast?_eq_head?_reverse] at hc
      exact List.mem_reverse.mp (List.mem_of_mem_head? (by rw [hc]; exact rfl))
    exact absurd (ht '\n' hmem) (by decide)
  | cons d ds =>
    rw [joinLines_getLast_Y ((d :: ds).map ruleLine) title (by simp)
      fun l hl => by
        obtain ⟨x, _, rfl⟩ := List.mem_map.mp hl
        exact ruleLine_getLast x]
    simp

/-! ## Properties of the sorted enumeration -/

theorem insertSorted_perm (x : String) : ∀ l : List String, (insertSorted x l).Perm (x :: l) := by
  intro l
  induction l with
  | nil =>
    rw [show insertSorted x [] = [x] from by simp [insertSorted]]
  | cons y ys ih =>
    by_cases h : pyLe x y = true
    · rw [show insertSorted x (y :: ys) = x :: y :: ys from by simp [insertSorted, h]]
    · rw [show insertSorted x (y :: ys) = y :: insertSorted x ys from by simp [insertSorted, h]]
      exact (ih.cons y).trans (List.Perm.swap x y ys)

theorem foldr_insertSorted_perm : ∀ l : List String, (l.foldr insertSorted []).Perm l := by
  intro l
  induction l with
  | nil => exact List.Perm.refl _
  | cons x xs ih =>
    rw [List.foldr_cons]
    exact (insertSorted_perm x _).trans (ih.cons x)

theorem mem_insertSorted {y x : String} {l : List String} :
    y ∈ insertSorted x l ↔ y = x ∨ y ∈ l := by
  rw [(insertSorted_perm x l).mem_iff]
  simp

theorem pairwise_insertSorted {x : String} {l : List String}
    (h : l.Pairwise fun a b => pyLe a b = true) :
    (insertSorted x l).Pairwise fun a b => pyLe a b = true := by
  induction l with
  | nil => simp [insertSorted]
  | cons y ys ih =>
    rcases List.pairwise_cons.mp h with ⟨hy, hys⟩
    by_cases hxy : pyLe x y = true
    · rw [show insertSorted x (y :: ys) = x :: y :: ys from by simp [insertSorted, hxy]]
      refine List.pairwise_cons.mpr ⟨?_, h⟩
      intro b hb
      rcases List.mem_cons.mp hb with rfl | hb
      · exact hxy
      · exact pyLe_trans hxy (hy b hb)
    · have hyx := (pyLe_total x y).resolve_left hxy
      rw [show insertSorted x (y :: ys) = y :: insertSorted x ys from by simp [insertSorted, hxy]]
      refine List.pairwise_cons.mpr ⟨?_, ih hys⟩
      intro b hb
      rcases mem_insertSorted.mp hb with rfl | hb
      · exact hyx
      · exact hy b hb

theorem foldr_insertSorted_pairwise :
    ∀ l : List String, (l.foldr insertSorted []).Pairwise fun a b => pyLe a b = true := by
  intro l
  induction l with
  | nil => simp
  | cons x xs ih =>
    rw [List.foldr_cons]
    exact pairwise_insertSorted ih

theorem mem_sortedDomains {s : Finset String} {a : String} :
    a ∈ sortedDomains s ↔ a ∈ s := by
  unfold sortedDomains
  rw [show (a ∈ s) = (a ∈ s.val) from rfl]
  induction s.val using Quotient.inductionOn with
  | h l =>
    rw [Multiset.quot_mk_to_coe,
      show Multiset.foldr insertSorted [] (l : Multiset String) = l.foldr insertSorted [] from
        rfl,
      (foldr_insertSorted_perm l).mem_iff]
    simp

theorem sortedDomains_nodup (s : Finset String) : (sortedDomains s).Nodup := by
  unfold sortedDomains
  obtain ⟨m, nd⟩ := s
  show (Multiset.foldr insertSorted [] m).Nodup
  revert nd
  induction m using Quotient.inductionOn with
  | h l =>
    intro nd
    rw [Multiset.quot_mk_to_coe,
      show Multiset.foldr insertSorted [] (l : Multiset String) = l.foldr insertSorted [] from
        rfl]
    exact (foldr_insertSorted_perm l).nodup_iff.mpr (Multiset.coe_nodup.mp (by simpa using nd))

theorem sortedDomains_pairwise (s : Finset String) :
    (sortedDomains s).Pairwise fun a b => pyLe a b = true := by
  unfold sortedDomains
  induction s.val using Quotient.inductionOn with
  | h l =>
    rw [Multiset.quot_mk_to_coe,
      show Multiset.foldr insertSorted [] (l : Multiset String) = l.foldr insertSorted [] from
        rfl]
    exact foldr_insertSorted_pairwise l

theorem sortedDomains_sorted_lt (s : Finset String) :
    (sortedDomains s).Pairwise fun a b => pyLt a b = true := by
  have h1 := sortedDomains_pairwise s
  have h2 : (sortedDomains s).Pairwise (· ≠ ·) := sortedDomains_nodup s
  exact (h1.and h2).imp fun h => (pyLt_iff _ _).mpr ⟨h.1, h.2⟩

/-! ## Helper lemmas about the fetch loop and the line pipeline -/

theorem fetchStep_comm (kw : List String) (acc : Finset String) (x y : Option String) :
    fetchStep kw (fetchStep kw acc x) y = fetchStep kw (fetchStep kw acc y) x := by
  cases x with
  | none => rfl
  | some tx =>
    cases y with
    | none => rfl
    | some ty =>
      show (acc ∪ _) ∪ _ = (acc ∪ _) ∪ _
      rw [Finset.union_right_comm]

theorem foldl_fetchStep_perm (kw : List String) {l1 l2 : List (Option String)}
    (hp : l1.Perm l2) :
    ∀ acc : Finset String, l1.foldl (fetchStep kw) acc = l2.foldl (fetchStep kw) acc := by
  induction hp with
  | nil => intro acc; rfl
  | cons x _ ih =>
    intro acc
    rw [List.foldl_cons, List.foldl_cons, ih]
  | swap x y l =>
    intro acc
    rw [List.foldl_cons, List.foldl_cons, List.foldl_cons, List.foldl_cons, fetchStep_comm]
  | trans _ _ ih1 ih2 =>
    intro acc
    rw [ih1, ih2]

theorem foldl_fetchStep_filter (kw : List String) :
    ∀ (l : List (Option String)) (acc : Finset String),
      l.foldl (fetchStep kw) acc = (l.filter fun f => f.isSome).foldl (fetchStep kw) acc := by
  intro l
  induction l with
  | nil => intro acc; rfl
  | cons x xs ih =>
    intro acc
    cases x with
    | none =>
      rw [List.foldl_cons, List.filter_cons_of_neg (by simp)]
      exact ih acc
    | some tx =>
      rw [List.foldl_cons, List.filter_cons_of_pos (by simp), List.foldl_cons]
      exact ih _

theorem tryMatchAt_domain_at_head {cs cap : List Char} (h : tryMatchAt cs = some cap) :
    "DOMAIN".data.isPrefixOf cs = true := by
  by_cases hp : "DOMAIN".data.isPrefixOf cs = true
  · exact hp
  · unfold tryMatchAt at h
    rw [if_neg hp] at h
    exact absurd h (by simp)

theorem regexSearch_substr : ∀ (cs : List Char) (prev : Option Char) (cap : List Char),
    regexSearchAux prev cs = some cap → strIn "DOMAIN".data cs = true := by
  intro cs
  induction cs with
  | nil =>
    intro prev cap h
    simp [regexSearchAux] at h
  | cons c r ih =>
    intro prev cap h
    cases h2 : tryMatchAt (c :: r) with
    | some cap2 =>
      have hdp := tryMatchAt_domain_at_head h2
      unfold strIn substrAux
      rw [hdp]
      rfl
    | none =>
      have hrec : regexSearchAux (some c) r = some cap := by
        unfold regexSearchAux at h
        rw [h2] at h
        simpa using h
      have hsub := ih (some c) cap hrec
      unfold strIn at hsub ⊢
      unfold substrAux
      rw [hsub]
      simp

theorem stripChars_eq_self_of_no_ws {l : List Char} (h : ∀ c ∈ l, isPySpace c = false) :
    stripChars l = l := by
  refine stripChars_eq_self (fun c hc => ?_) (fun c hc => ?_)
  · exact h c (List.mem_of_mem_head? (by simp [hc]))
  · rw [List.getLast?_eq_head?_reverse] at hc
    exact h c (List.mem_reverse.mp (List.mem_of_mem_head? (by simp [hc])))

theorem lineDomain_of_extract_none {kw : List String} {cs : List Char}
    (h : extractLine cs = none) : lineDomain kw cs = none := by
  unfold lineDomain
  rw [h]
  rfl

theorem extractLine_title : extractLine "# Auto generated".data = none := by decide

theorem lineDomain_ruleLine (kw : List String) (d : String)
    (hne : d.data ≠ [])
    (hnw : ∀ c ∈ d.data, isPySpace c = false)
    (hnc : ∀ c ∈ d.data, c ≠ ',')
    (hlow : lowerChars d.data = d.data)
    (hdot : d.data.contains '.' = true)
    (hk : ∃ k ∈ kw, strIn k.data d.data = true) :
    lineDomain kw (ruleLine d).data = some d.data := by
  have hdw : d.data.dropWhile isPySpace = d.data :=
    dropWhile_eq_self_of_head _ fun c hc => hnw c (List.mem_of_mem_head? (by simp [hc]))
  have he := extract_rule true [] [] [] d.data (by simp) (by simp) (by simp) hnc
    (by rw [hdw]; exact hne)
  rw [show (if (true : Bool) then ("DOMAIN-SUFFIX".data : List Char) else "DOMAIN".data) =
      "DOMAIN-SUFFIX".data from rfl] at he
  simp only [List.nil_append, List.append_nil] at he
  have hrl : (ruleLine d).data =
      "DOMAIN-SUFFIX".data ++ ',' :: (d.data ++ ',' :: "PROXY".data) := by
    rw [ruleLine_data,
      show ("DOMAIN-SUFFIX,".data : List Char) = "DOMAIN-SUFFIX".data ++ [','] from rfl,
      show (",PROXY".data : List Char) = ',' :: "PROXY".data from rfl]
    simp [List.append_assoc]
  have hex : extractLine (ruleLine d).data = some d.data := by
    rw [hrl, he, hdw]
  have hnorm : normalizeTok d.data = d.data := by
    unfold normalizeTok
    rw [stripChars_eq_self_of_no_ws hnw, hlow]
  have hany : kw.any (fun k => strIn k.data d.data) = true := by
    obtain ⟨k, hk1, hk2⟩ := hk
    exact List.any_eq_true.mpr ⟨k, hk1, hk2⟩
  unfold lineDomain
  rw [hex]
  simp [hnorm, acceptTok, hany, hdot]
  exact ⟨hk, by simpa using hdot⟩

theorem splitlines_of_pySplitlines {s : String} {ls : List String}
    (h : pySplitlines s = ls) : splitlinesList s.data = ls.map String.data := by
  unfold pySplitlines at h
  have h2 := congrArg (List.map String.data) h
  rw [List.map_map, show (String.data ∘ String.mk) = id from funext fun l => rfl,
    List.map_id] at h2
  exact h2

theorem filterMap_ruleLines (kw : List String) :
    ∀ ds : List String, (∀ d ∈ ds, lineDomain kw (ruleLine d).data = some d.data) →
      ds.filterMap (fun d => (lineDomain kw (ruleLine d).data).map String.mk) = ds := by
  intro ds
  induction ds with
  | nil => intro _; rfl
  | cons d ds' ih =>
    intro h
    rw [List.filterMap_cons, h d (List.mem_cons_self _ _)]
    simp only [Option.map_some']
    rw [mk_data, ih fun x hx => h x (List.mem_cons_of_mem _ hx)]

theorem textDomains_write_conf (kw : List String) (domains : List String)
    (hall : ∀ d ∈ domains, lineDomain kw (ruleLine d).data = some d.data)
    (hnb : ∀ d ∈ domains, ∀ c ∈ d.data, isLineBreak c = false) :
    textDomains kw (write_conf domains "# Auto generated") = domains := by
  unfold textDomains
  rw [splitlines_of_pySplitlines
      (pySplitlines_write_conf "# Auto generated" domains (by decide) hnb),
    List.map_cons,
    List.filterMap_cons_none (by rw [lineDomain_of_extract_none extractLine_title]; rfl),
    List.map_map,
    show List.filterMap (fun l => (lineDomain kw l).map String.mk)
        (domains.map (String.data ∘ ruleLine)) =
      List.filterMap (fun d => (lineDomain kw (ruleLine d).data).map String.mk) domains from by
      rw [List.filterMap_map]
      rfl]
  exact filterMap_ruleLines kw domains hall

/-! ## The claims -/

/-- Claim C1: for every input line of the exact form `DOMAIN-SUFFIX,<token>,PROXY`
or `DOMAIN,<token>,PROXY` (with optional whitespace around the commas, a
comma-free token that is not pure whitespace), the parsing stage — the regex
capture of lines 73-77 followed by `.strip()` — extracts exactly the token,
trimmed of surrounding whitespace. -/
theorem C1_parser_extracts_token (sfx : Bool) (w1 w2 w3 t : List Char)
    (hw1 : ∀ c ∈ w1, isPySpace c = true)
    (hw2 : ∀ c ∈ w2, isPySpace c = true)
    (hw3 : ∀ c ∈ w3, isPySpace c = true)
    (ht : ∀ c ∈ t, c ≠ ',')
    (hne : stripChars t ≠ []) :
    (extractLine ((if sfx then "DOMAIN-SUFFIX".data else "DOMAIN".data) ++
        (w1 ++ ',' :: ((w2 ++ t ++ w3) ++ ',' :: "PROXY".data)))).map stripChars =
      some (stripChars t) := by
  rw [extract_rule sfx w1 w2 w3 t hw1 hw2 hw3 ht (dropWhile_ne_nil_of_stripChars hne)]
  simp only [Option.map_some']
  rw [stripChars_append_ws _ w3 hw3, stripChars_dropWhile]

/-- Witness for C1 at the line `DOMAIN-SUFFIX, example.com ,PROXY`. -/
theorem C1_parser_extracts_token_witness :
    (extractLine ((if true then "DOMAIN-SUFFIX".data else "DOMAIN".data) ++
        ([] ++ ',' :: ((([' '] ++ "example.com".data ++ [' '])) ++ ',' :: "PROXY".data)))).map
        stripChars =
      some (stripChars "example.com".data) :=
  C1_parser_extracts_token true [] [' '] [' '] "example.com".data
    (by decide) (by decide) (by decide) (by decide) (by decide)

/-- Claim C2: an extracted token is accepted by the classifier (lines 77-81)
iff, after trimming and lower-casing it, some keyword of the group's list
occurs in it as a plain substring and it contains at least one `"."`. -/
theorem C2_classifier_accepts_iff (kw : List String) (tok : List Char) :
    (acceptTok kw (normalizeTok tok)).isSome = true ↔
      ((∃ k ∈ kw, strIn k.data (lowerChars (stripChars tok)) = true) ∧
        (lowerChars (stripChars tok)).contains '.' = true) := by
  show (acceptTok kw (lowerChars (stripChars tok))).isSome = true ↔ _
  generalize lowerChars (stripChars tok) = d
  unfold acceptTok
  by_cases h1 : kw.any (fun k => strIn k.data d) = true
  · rw [if_pos h1]
    by_cases h2 : d.contains '.' = true
    · rw [if_pos h2]
      simp only [Option.isSome_some, true_iff]
      exact ⟨by simpa using List.any_eq_true.mp h1, h2⟩
    · rw [if_neg h2]
      simp only [Option.isSome_none]
      constructor
      · intro hh
        exact absurd hh (by simp)
      · rintro ⟨_, hdot⟩
        exact absurd hdot h2
  · rw [if_neg h1]
    simp only [Option.isSome_none]
    constructor
    · intro hh
      exact absurd hh (by simp)
    · rintro ⟨⟨k, hk1, hk2⟩, _⟩
      exact absurd (List.any_eq_true.mpr ⟨k, hk1, hk2⟩) h1

/-- Claim C3: in overwrite mode, for every newline-free title and domain
sequence, the produced file content splits into the title line followed by
exactly one `DOMAIN-SUFFIX,<d>,PROXY` line per domain in order, and ends
with exactly one trailing newline.  (The replacement of prior file content
is `Path.write_text` semantics, outside the pure model.) -/
theorem C3_write_conf_overwrite_format (title : String) (domains : List String)
    (ht : ∀ c ∈ title.data, isLineBreak c = false)
    (hd : ∀ d ∈ domains, ∀ c ∈ d.data, isLineBreak c = false) :
    pySplitlines (write_conf domains title) = title :: domains.map ruleLine ∧
      (write_conf domains title).data.getLast? = some '\n' ∧
      (write_conf domains title).data.dropLast.getLast? ≠ some '\n' := by
  refine ⟨pySplitlines_write_conf title domains ht hd, ?_, ?_⟩
  · rw [show ((write_conf domains title).data : List Char) =
        (joinLines (title :: domains.map ruleLine)).data ++ ['\n'] from by
      unfold write_conf
      simp]
    exact List.getLast?_concat _
  · rw [show ((write_conf domains title).data : List Char) =
        (joinLines (title :: domains.map ruleLine)).data ++ ['\n'] from by
      unfold write_conf
      simp]
    rw [List.dropLast_concat]
    exact joinLines_getLast_not_lf title domains ht

/-- Witness for C3 at title `# T` and domains `["a.com"]`. -/
theorem C3_write_conf_overwrite_format_witness :
    pySplitlines (write_conf ["a.com"] "# T") = "# T" :: ["a.com"].map ruleLine ∧
      (write_conf ["a.com"] "# T").data.getLast? = some '\n' ∧
      (write_conf ["a.com"] "# T").data.dropLast.getLast? ≠ some '\n' :=
  C3_write_conf_overwrite_format "# T" ["a.com"] (by decide) (by decide)

/-- Claim C4: writing the collection `["b.com", "a.com", "a.com"]` through the
write stage (set + `sorted` + `write_conf`, lines 106-111) yields exactly two
rule lines with `a.com` before `b.com`; in general every written domain list
is deduplicated and ascending in code-point lexicographic order. -/
theorem C4_written_lists_sorted_dedup :
    pySplitlines (writeStage ["b.com", "a.com", "a.com"] "# Auto generated") =
        ["# Auto generated", "DOMAIN-SUFFIX,a.com,PROXY", "DOMAIN-SUFFIX,b.com,PROXY"] ∧
      ∀ s : Finset String,
        (sortedDomains s).Nodup ∧
          (sortedDomains s).Pairwise fun a b => pyLt a b = true :=
  ⟨by decide, fun s => ⟨sortedDomains_nodup s, sortedDomains_sorted_lt s⟩⟩

/-- Claim C5: the combined `all-ai.conf` domain list (line 136) contains a
domain iff it belongs to the google, openai, or claude group set — the
combined set is exactly the union of the per-group sets. -/
theorem C5_combined_is_union (g o c : List (Option String)) (d : String) :
    d ∈ allDomains g o c ↔
      (d ∈ fetch_domains g GOOGLE_KEYWORDS ∨ d ∈ fetch_domains o OPENAI_KEYWORDS ∨
        d ∈ fetch_domains c CLAUDE_KEYWORDS) := by
  unfold allDomains
  rw [mem_sortedDomains]
  simp only [Finset.mem_union, List.mem_toFinset, mem_sortedDomains, or_assoc]

/-- Claim C6: a failed fetch (`none`) is skipped and contributes nothing:
removing it from the source list does not change the resulting set, and the
whole result equals that of the succeeding sources alone. -/
theorem C6_fetch_failures_skipped (kw : List String) :
    (∀ l1 l2 : List (Option String),
        fetch_domains (l1 ++ none :: l2) kw = fetch_domains (l1 ++ l2) kw) ∧
      ∀ fetches : List (Option String),
        fetch_domains fetches kw = fetch_domains (fetches.filter fun f => f.isSome) kw := by
  constructor
  · intro l1 l2
    unfold fetch_domains
    rw [List.foldl_append, List.foldl_append, List.foldl_cons]
    rfl
  · intro fetches
    unfold fetch_domains
    exact foldl_fetchStep_filter kw fetches ∅

/-- Claim C7: an input line that is empty after stripping, whitespace-only,
starts with `"#"`, or does not encode a recognized rule (no `DOMAIN`
occurrence at all, or no regex match) yields no extracted token and
contributes nothing to the domain set; the parser is a total function, so
no error is possible. -/
theorem C7_non_rule_lines_ignored (kw : List String) (line : List Char)
    (h : stripChars line = [] ∨ (stripChars line).head? = some '#' ∨
        strIn "DOMAIN".data (stripChars line) = false ∨
        regexSearch (stripChars line) = none) :
    extractLine line = none ∧ lineDomain kw line = none := by
  have hex : extractLine line = none := by
    rcases h with h | h | h | h
    · unfold extractLine
      rw [h]
      rfl
    · simp [extractLine, h]
    · cases hr : regexSearch (stripChars line) with
      | none => simp [extractLine, hr]
      | some cap =>
        have hsub := regexSearch_substr (stripChars line) none cap hr
        rw [hsub] at h
        cases h
    · simp [extractLine, h]
  exact ⟨hex, lineDomain_of_extract_none hex⟩

/-- Witness for C7 at a prose line. -/
theorem C7_non_rule_lines_ignored_witness :
    extractLine "just some prose, nothing else".data = none ∧
      lineDomain ["google"] "just some prose, nothing else".data = none :=
  C7_non_rule_lines_ignored ["google"] "just some prose, nothing else".data
    (Or.inr (Or.inr (Or.inl (by decide))))

/-- Claim C8: with a fixed mapping from source addresses to fetch outcomes
and a fixed keyword list, permuting the source address list does not change
the resulting domain set. -/
theorem C8_source_order_irrelevant (f : String → Option String)
    (urls1 urls2 : List String) (kw : List String) (hp : urls1.Perm urls2) :
    fetch_domains (urls1.map f) kw = fetch_domains (urls2.map f) kw := by
  unfold fetch_domains
  exact foldl_fetchStep_perm kw (hp.map f) ∅

/-- Witness for C8: swapping two concrete sources. -/
theorem C8_source_order_irrelevant_witness :
    fetch_domains (["u1", "u2"].map fun u =>
        if u = "u1" then some "DOMAIN-SUFFIX,bard.google.com,PROXY"
        else some "DOMAIN-SUFFIX,gemini.google.com,PROXY") ["google"] =
      fetch_domains (["u2", "u1"].map fun u =>
        if u = "u1" then some "DOMAIN-SUFFIX,bard.google.com,PROXY"
        else some "DOMAIN-SUFFIX,gemini.google.com,PROXY") ["google"] :=
  C8_source_order_irrelevant _ ["u1", "u2"] ["u2", "u1"] ["google"]
    (List.Perm.swap "u2" "u1" [])

/-- Claim C9 (modelled from the spec; the incremental-append script is not
part of `src/`): the incremental append mode computes the set difference
between the candidate domains and the `DOMAIN-SUFFIX` entries already
declared in the target file (exact, non-normalized string match) and appends
only those new entries, preserving the prior content as a prefix. -/
theorem C9_incremental_append_mode (cands : Finset String) (fileText header : String) :
    (∃ rest : String, incrementalAppend cands fileText header = fileText ++ rest) ∧
      ∀ d : String, d ∈ sortedDomains (newDomains cands fileText) ↔
        (d ∈ cands ∧ d ∉ existingEntries fileText) := by
  constructor
  · refine ⟨"\n" ++ header ++ "\n" ++
      String.join ((sortedDomains (newDomains cands fileText)).map
        fun d => ruleLine d ++ "\n"), ?_⟩
    unfold incrementalAppend
    simp [String.append_assoc]
  · intro d
    rw [mem_sortedDomains]
    unfold newDomains
    exact Finset.mem_sdiff

/-- Claim C10, counterexample: the domain list `[" a.b"]` satisfies the
claim's stated conditions (non-empty, comma-free, lower-case, contains `"."`)
and the keyword `"a.b"` matches it as a substring, yet the round trip does
not recover the original set — the parser trims the leading space, so the
recovered set is `{"a.b"}`, not `{" a.b"}`. -/
theorem C10_roundtrip_counterexample :
    ((" a.b" : String) ≠ "" ∧ (∀ c ∈ (" a.b" : String).data, c ≠ ',') ∧
      lowerChars (" a.b" : String).data = (" a.b" : String).data ∧
      (" a.b" : String).data.contains '.' = true ∧
      strIn "a.b".data (" a.b" : String).data = true) ∧
    roundTrip [" a.b"] ["a.b"] ≠ ([" a.b"] : List String).toFinset := by
  refine ⟨⟨by decide, by decide, by decide, by decide, by decide⟩, ?_⟩
  decide

/-- Claim C10 (amended: the domains must additionally be whitespace-free; the
counterexample shows a domain with surrounding whitespace is trimmed by the
parser and therefore not recovered): for every list of non-empty, comma-free,
whitespace-free, lower-case domains each containing `"."`, and keywords
matching each domain as a substring, feeding the writer's output back through
the fetch-parse-classify stage recovers exactly the original set of domains. -/
theorem C10_roundtrip_amended (domains keywords : List String)
    (hd : ∀ d ∈ domains, d.data ≠ [] ∧ (∀ c ∈ d.data, c ≠ ',' ∧ isPySpace c = false) ∧
      lowerChars d.data = d.data ∧ d.data.contains '.' = true)
    (hk : ∀ d ∈ domains, ∃ k ∈ keywords, strIn k.data d.data = true) :
    roundTrip domains keywords = domains.toFinset := by
  have hall : ∀ d ∈ domains, lineDomain keywords (ruleLine d).data = some d.data := by
    intro d hdm
    rcases hd d hdm with ⟨h1, h2, h3, h4⟩
    exact lineDomain_ruleLine keywords d h1 (fun c hc => (h2 c hc).2)
      (fun c hc => (h2 c hc).1) h3 h4 (hk d hdm)
  have hnb : ∀ d ∈ domains, ∀ c ∈ d.data, isLineBreak c = false := by
    intro d hdm c hc
    rcases hd d hdm with ⟨_, h2, _, _⟩
    cases hb : isLineBreak c with
    | false => rfl
    | true => exact absurd (break_is_space hb) (by simp [(h2 c hc).2])
  unfold roundTrip fetch_domains
  rw [List.foldl_cons, List.foldl_nil]
  show ∅ ∪ (textDomains keywords (write_conf domains "# Auto generated")).toFinset =
    domains.toFinset
  rw [Finset.empty_union, textDomains_write_conf keywords domains hall hnb]

/-- Witness for the amended C10 at `["a.com", "b.net"]`. -/
theorem C10_roundtrip_amended_witness :
    roundTrip ["a.com", "b.net"] ["a.com", "b.net"] =
      (["a.com", "b.net"] : List String).toFinset :=
  C10_roundtrip_amended ["a.com", "b.net"] ["a.com", "b.net"] (by decide) (by decide)
